import Mathlib

/-!
Shallow embedding of the migration engine (`src/main.py`, `src/validation.py`)
of the MSSQL-to-PostgreSQL migration tool, together with proofs about the
identifier translator, duplicate-column-name resolution, the foreign-key
dependency graph built by the catalog reader, Kahn's topological sort, the
data-transfer commit/rollback discipline and the row-count validator.

Python strings are modelled as Lean `String`, Python dicts of strings as
association lists `List (String × String)` (keys unique in every real run;
`List.lookup` returns the first binding), Python `set`s of strings as `List
String` queried only through membership, and Python ints as `Int`.
-/

namespace Migration

/-- Python `identifier.replace('"','').replace('[','').replace(']','')`:
removing every occurrence of a one-character substring is a character filter. -/
def pyClean (s : String) : String :=
  String.mk (s.data.filter (fun c => ¬(c = '"' ∨ c = '[' ∨ c = ']')))

/-- Python `s.split('_')` on the character list: maximal split on every
underscore, keeping empty fragments (`"" → [""]`, `"a__b" → ["a","","b"]`). -/
def splitChars (cs : List Char) : List (List Char) :=
  match cs with
  | [] => [[]]
  | c :: rest =>
    let r := splitChars rest
    if c = '_' then [] :: r
    else
      match r with
      | [] => [[c]]
      | p :: ps => (c :: p) :: ps

/-- Python `clean_identifier.split('_')`. -/
def pySplit (s : String) : List String :=
  (splitChars s.data).map String.mk

/-- Python `'_'.join(parts)` on character lists. -/
def joinChars (ps : List (List Char)) : List Char :=
  match ps with
  | [] => []
  | p :: rest =>
    match rest with
    | [] => p
    | _ :: _ => p ++ '_' :: joinChars rest

/-- Python `'_'.join(translated_parts)`. -/
def pyJoin (l : List String) : String :=
  String.mk (joinChars (l.map String.data))

/-- `translate_identifier` (src/main.py lines 73-100).  The global
`TRANSLATION_DICT` becomes the explicit parameter `d`.

```
if not TRANSLATION_DICT: return identifier
clean_identifier = identifier.replace('"','').replace('[','').replace(']','')
if clean_identifier in TRANSLATION_DICT: return TRANSLATION_DICT[clean_identifier]
parts = clean_identifier.split('_')
translated = '_'.join(TRANSLATION_DICT.get(part, part) for part in parts)
if translated == clean_identifier: return identifier
return translated
``` -/
def translate_identifier (d : List (String × String)) (identifier : String) : String :=
  if d = [] then identifier
  else
    let clean_identifier := pyClean identifier
    match List.lookup clean_identifier d with
    | some v => v
    | none =>
      let parts := pySplit clean_identifier
      let translated_parts := parts.map (fun part => (List.lookup part d).getD part)
      let translated := pyJoin translated_parts
      if translated = clean_identifier then identifier else translated

/-- A row of the column-metadata query (src/main.py lines 154-165), projected
to the one field the duplicate-name resolution consults (`COLUMN_NAME`); data
type, nullability, default and identity do not affect naming. -/
structure SourceColumn where
  COLUMN_NAME : String
deriving DecidableEq, Repr

/-- Python `set.add` on the membership-only model of a set of strings. -/
def setAdd (used : List String) (x : String) : List String :=
  if x ∈ used then used else x :: used

/-- Python `s.lower()` as a character map (the identifiers involved are
ASCII; `String.toLower` is the same map, but its byte-position recursion does
not reduce definitionally, so the list form is used). -/
def pyLower (s : String) : String :=
  String.mk (s.data.map Char.toLower)

/-- The collision loop of `migrate_tables_structure` (src/main.py lines
376-386):

```
translated_col_name = base_translated_name
counter = 1
while translated_col_name.lower() in used_column_names:
    translated_col_name = f"{base_translated_name}_{counter}"
    counter += 1
```

The `while` is bounded by fuel `used.length + 2`: the candidates
`base, base_1, …, base_{n+1}` are `n + 2` pairwise distinct names against a
set of at most `n` used names, so the fuel never runs out. -/
def structResolveName (base : String) (used : List String) : String :=
  go base 1 (used.length + 2)
where
  go (cand : String) (counter fuel : Nat) : String :=
    match fuel with
    | 0 => cand
    | fuel + 1 =>
      if pyLower cand ∈ used then go (base ++ "_" ++ toString counter) (counter + 1) fuel
      else cand

/-- The final column names synthesized by the DDL phase
`migrate_tables_structure` (src/main.py lines 370-389), in column order:
process columns in catalog order against the growing lowercase used-name set. -/
def migrate_tables_structure_names (d : List (String × String)) :
    List String → List SourceColumn → List String
  | _, [] => []
  | used, col :: rest =>
    let base_translated_name := translate_identifier d col.COLUMN_NAME
    let translated_col_name := structResolveName base_translated_name used
    translated_col_name ::
      migrate_tables_structure_names d (setAdd used (pyLower translated_col_name)) rest

/-- The collision loop of `migrate_data` (src/main.py lines 473-481), a
verbatim second copy of the resolution loop. -/
def dataResolveName (base : String) (used : List String) : String :=
  go base 1 (used.length + 2)
where
  go (cand : String) (counter fuel : Nat) : String :=
    match fuel with
    | 0 => cand
    | fuel + 1 =>
      if pyLower cand ∈ used then go (base ++ "_" ++ toString counter) (counter + 1) fuel
      else cand

/-- The final translated insert-column list computed by the data-transfer
phase `migrate_data` (src/main.py lines 468-484), in column order. -/
def migrate_data_final_columns (d : List (String × String)) :
    List String → List SourceColumn → List String
  | _, [] => []
  | used, col :: rest =>
    let base_translated_name := translate_identifier d col.COLUMN_NAME
    let final_translated_name := dataResolveName base_translated_name used
    final_translated_name ::
      migrate_data_final_columns d (setAdd used (pyLower final_translated_name)) rest

/-- The collision loop of `get_final_column_name` (src/main.py lines 541-544),
a verbatim third copy of the resolution loop. -/
def cfnResolveName (base : String) (used : List String) : String :=
  go base 1 (used.length + 2)
where
  go (cand : String) (counter fuel : Nat) : String :=
    match fuel with
    | 0 => cand
    | fuel + 1 =>
      if pyLower cand ∈ used then go (base ++ "_" ++ toString counter) (counter + 1) fuel
      else cand

/-- `get_final_column_name` (src/main.py lines 532-552): replay the resolution
over the whole column list and return the final name of the column whose
original name is `original_col_name`; fall back to the bare translation. -/
def get_final_column_name (d : List (String × String))
    (original_col_name : String) : List String → List SourceColumn → String
  | _, [] => translate_identifier d original_col_name
  | used, col :: rest =>
    let base_translated_name := translate_identifier d col.COLUMN_NAME
    let final_translated_name := cfnResolveName base_translated_name used
    let used' := setAdd used (pyLower final_translated_name)
    if col.COLUMN_NAME = original_col_name then final_translated_name
    else get_final_column_name d original_col_name used' rest

/-- A row of the foreign-key catalog query of `get_mssql_metadata`
(src/main.py lines 215-230). -/
structure FKRow where
  constraint_name : String
  child_schema : String
  child_table : String
  child_column : String
  parent_schema : String
  parent_table : String
  parent_column : String
deriving DecidableEq, Repr

/-- `child_key = f"{row.child_schema}.{translated_child_table}"`. -/
def fkChildKey (d : List (String × String)) (r : FKRow) : String :=
  r.child_schema ++ "." ++ translate_identifier d r.child_table

/-- `parent_key = f"{row.parent_schema}.{translated_parent_table}"`. -/
def fkParentKey (d : List (String × String)) (r : FKRow) : String :=
  r.parent_schema ++ "." ++ translate_identifier d r.parent_table

/-- The dependency edges added by the FK pass of `get_mssql_metadata`
(src/main.py lines 233-244).  `tables` is the key set of
`metadata['tables']` at that point.  The Python `defaultdict(list)`
`metadata['dependencies']` (child → list of parents) is flattened to the
`(child_key, parent_key)` edge list in row order; the claims about the graph
only consult edge membership.

```
if parent_key != child_key and child_key in metadata['tables']:
    metadata['dependencies'][child_key].append(parent_key)
``` -/
def buildFKDependencies (d : List (String × String)) (tables : List String) :
    List FKRow → List (String × String)
  | [] => []
  | r :: rest =>
    let parent_key := fkParentKey d r
    let child_key := fkChildKey d r
    if parent_key ≠ child_key ∧ child_key ∈ tables then
      (child_key, parent_key) :: buildFKDependencies d tables rest
    else buildFKDependencies d tables rest

/-- Iteration order of a Python dict built by repeated indexing: the keys in
order of first occurrence. -/
def firstOccurrences [DecidableEq α] : List α → List α
  | [] => []
  | a :: rest => a :: firstOccurrences (rest.filter (fun b => b ≠ a))
termination_by l => l.length
decreasing_by simp_all; exact Nat.lt_succ_of_le (List.length_filter_le _ _)

/-- The `(child_key, constraint_name)` keys under which the FK pass records
constraint metadata on child tables (src/main.py lines 246-254): the `fks`
dict collects one key per distinct `(child_key, row.constraint_name)` over all
rows, and the recording loop keeps those whose child table is migrated. -/
def recordedFKConstraintKeys (d : List (String × String)) (tables : List String)
    (rows : List FKRow) : List (String × String) :=
  (firstOccurrences (rows.map (fun r => (fkChildKey d r, r.constraint_name)))).filter
    (fun k => k.1 ∈ tables)

/-- The edge-list flattening of the `dependencies` dict consumed by
`topological_sort` (child table paired with each parent it references). -/
def depEdges (dependencies : List (String × List String)) : List (String × String) :=
  (dependencies.map (fun p => p.2.map (fun v => (p.1, v)))).flatten

/-- The adjacency / in-degree construction of `topological_sort`
(src/main.py lines 304-311), as a left fold over the flattened edge list:

```
for u, deps in dependencies.items():
    for v in deps:
        if u in adj and v in adj:
            adj[v].append(u)
            in_degree[u] += 1
```

`adj` and `in_degree` are dicts keyed by `all_tables`, modelled as total
functions (`[]` / `0` off the key set, matching `adj.get(u, [])`). -/
def addEdges (tables : List String) :
    List (String × String) → (String → List String) → (String → Int) →
    (String → List String) × (String → Int)
  | [], adj, in_degree => (adj, in_degree)
  | (u, v) :: rest, adj, in_degree =>
    if u ∈ tables ∧ v ∈ tables then
      addEdges tables rest
        (fun x => if x = v then adj x ++ [u] else adj x)
        (fun x => if x = u then in_degree x + 1 else in_degree x)
    else addEdges tables rest adj in_degree

/-- The body of `for v in adj.get(u, [])` (src/main.py lines 318-321):
decrement each child's in-degree and collect, in order, the children whose
in-degree just became zero (they are appended to the queue). -/
def processChildren : List String → (String → Int) → (String → Int) × List String
  | [], in_degree => (in_degree, [])
  | v :: vs, in_degree =>
    let in_degree' := fun x => if x = v then in_degree x - 1 else in_degree x
    let r := processChildren vs in_degree'
    if in_degree' v = 0 then (r.1, v :: r.2) else r

/-- The Kahn `while queue:` loop (src/main.py lines 315-321).  The loop is
bounded by fuel: every iteration appends one table to `sorted_order`, and (as
proved below) no more than `all_tables.length` tables are ever dequeued, so
any fuel beyond that bound never runs out. -/
def kahnLoop (adj : String → List String) :
    Nat → List String → (String → Int) → List String → List String
  | 0, _, _, sorted_order => sorted_order
  | fuel + 1, queue, in_degree, sorted_order =>
    match queue with
    | [] => sorted_order
    | u :: rest =>
      let r := processChildren (adj u) in_degree
      kahnLoop adj fuel (rest ++ r.2) r.1 (sorted_order ++ [u])

/-- `topological_sort` (src/main.py lines 301-330).  The cyclic remainder
`list(set(all_tables) - set(sorted_order))` is enumerated by Python in
unspecified set order; it is modelled in stable input order, with the set
construction deduplicating repeated names (the properties claimed of it are
insensitive to the order of this remainder). -/
def topological_sort (dependencies : List (String × List String))
    (all_tables : List String) : List String :=
  let edges := depEdges dependencies
  let r := addEdges all_tables edges (fun _ => []) (fun _ => 0)
  let queue := all_tables.filter (fun u => r.2 u = 0)
  let sorted_order := kahnLoop r.1 (all_tables.length + edges.length + 1) queue r.2 []
  if sorted_order.length = all_tables.length then sorted_order
  else sorted_order ++ firstOccurrences (all_tables.filter (fun t => ¬t ∈ sorted_order))

/-- Proof-side abbreviation (not part of the embedding): the edges of
`edges` whose two endpoints both lie in `tables` — exactly the edges the
adjacency construction of `topological_sort` keeps. -/
def keptEdges (tables : List String) (edges : List (String × String)) :
    List (String × String) :=
  edges.filter (fun e => e.1 ∈ tables ∧ e.2 ∈ tables)

/-- Proof-side abbreviation: the number of kept edges out of child `w` whose
parent has not yet been emitted into `done` — the value Kahn's algorithm
maintains in `in_degree w`. -/
def remIndeg (ve : List (String × String)) (done : List String) (w : String) : Int :=
  ((ve.filter (fun e => e.1 = w ∧ ¬e.2 ∈ done)).length : Int)

/-- Proof-side invariant of the Kahn loop of `topological_sort`, over the
kept-edge list `ve`: the emitted order and pending queue are disjoint and
duplicate-free and drawn from the table set; every emitted or queued table
has in-degree zero; `in_degree` is exactly the count of parents not yet
emitted; tables never enqueued still have a pending parent; and every
emitted table's parents are emitted before it. -/
def KahnInv (tables : List String) (ve : List (String × String))
    (queue : List String) (in_degree : String → Int) (order : List String) : Prop :=
  (order ++ queue).Nodup ∧
  (∀ x ∈ order ++ queue, x ∈ tables) ∧
  (∀ x ∈ order ++ queue, in_degree x = 0) ∧
  (∀ x, in_degree x = remIndeg ve order x) ∧
  (∀ x ∈ tables, x ∉ order ++ queue → 1 ≤ in_degree x) ∧
  (∀ o₁ x o₂, order = o₁ ++ x :: o₂ → ∀ e ∈ ve, e.1 = x → e.2 ∈ o₁)

/-- Observable database actions of the data-transfer phase. -/
inductive TransferOp (ρ : Type) where
  | insertBatch (table : String) (batch : List ρ)
  | commit (table : String)
  | rollback (table : String)
deriving DecidableEq, Repr

/-- The table a transfer operation acts on. -/
def TransferOp.opTable : TransferOp ρ → String
  | .insertBatch t _ => t
  | .commit t => t
  | .rollback t => t

/-- What the source cursor yields for one table: the successive non-empty
`fetchmany` batches, then optionally a database error (raised by the select,
a fetch, an insert, or the commit — all surface at the same `except`). -/
structure TableSource (ρ ε : Type) where
  batches : List (List ρ)
  err : Option ε

/-- The `try/except` body of `migrate_data` for one table (src/main.py lines
463-526): insert every fetched batch, then commit once; on an error, roll
back the table's open transaction and re-raise the exception. -/
def runTableTransfer (t : String) (src : TableSource ρ ε) :
    List (TransferOp ρ) × Option ε :=
  (src.batches.map (TransferOp.insertBatch t) ++
    [match src.err with
     | none => TransferOp.commit t
     | some _ => TransferOp.rollback t],
   src.err)

/-- `migrate_data` (src/main.py lines 441-529) as a trace of database actions
plus the exception outcome: walk `sorted_tables` in order, skip tables absent
from the metadata, run each table's transfer, and stop at the first re-raised
error.  Row values are opaque (`ρ`); the NUL-byte cleansing does not affect
the commit/rollback discipline. -/
def migrate_data (sorted_tables : List String)
    (meta : List (String × TableSource ρ ε)) : List (TransferOp ρ) × Option ε :=
  match sorted_tables with
  | [] => ([], none)
  | t :: ts =>
    match List.lookup t meta with
    | none => migrate_data ts meta
    | some src =>
      match src.err with
      | none =>
        ((runTableTransfer t src).1 ++ (migrate_data ts meta).1,
         (migrate_data ts meta).2)
      | some e => ((runTableTransfer t src).1, some e)

/-- The `ValidationIssue` dataclass (src/validation.py lines 13-26). -/
structure ValidationIssue where
  severity : String
  category : String
  table : String
  column : String
  message : String
  count : Int
deriving DecidableEq, Repr

/-- The per-table comparison body of `DataValidator.compare_row_counts`
(src/validation.py lines 542-549), given the two fetched counts: the issues
appended for that table.

```
if source_count != target_count:
    self.issues.append(ValidationIssue(severity='error', category='data_quality',
        table=table_key,
        message=f"Row count mismatch: source={source_count}, target={target_count}",
        count=abs(source_count - target_count)))
``` -/
def compare_row_counts_issues (table_key : String)
    (source_count target_count : Int) : List ValidationIssue :=
  if source_count ≠ target_count then
    [{ severity := "error", category := "data_quality", table := table_key,
       column := "",
       message := "Row count mismatch: source=" ++ toString source_count ++
         ", target=" ++ toString target_count,
       count := |source_count - target_count| }]
  else []

/-! ### Helper lemmas -/

theorem splitChars_ne_nil (cs : List Char) : splitChars cs ≠ [] := by
  match cs with
  | [] => simp [splitChars]
  | c :: rest =>
    simp only [splitChars]
    split
    · simp
    · match h : splitChars rest with
      | [] => simp
      | p :: ps => simp

theorem joinChars_splitChars (cs : List Char) : joinChars (splitChars cs) = cs := by
  induction cs with
  | nil => rfl
  | cons c rest ih =>
    simp only [splitChars]
    by_cases hc : c = '_'
    · subst hc
      simp only [if_pos rfl]
      have hne := splitChars_ne_nil rest
      match h : splitChars rest with
      | [] => exact absurd h hne
      | p :: ps =>
        rw [h] at ih
        show [] ++ '_' :: joinChars (p :: ps) = '_' :: rest
        rw [List.nil_append, ih]
    · rw [if_neg hc]
      have hne := splitChars_ne_nil rest
      match h : splitChars rest with
      | [] => exact absurd h hne
      | p :: ps =>
        rw [h] at ih
        match ps with
        | [] =>
          show joinChars [c :: p] = c :: rest
          show c :: p = c :: rest
          rw [show p = rest from ih]
        | q :: qs =>
          show (c :: p) ++ '_' :: joinChars (q :: qs) = c :: rest
          rw [List.cons_append]
          congr 1

theorem pyJoin_pySplit (s : String) : pyJoin (pySplit s) = s := by
  unfold pyJoin pySplit
  rw [List.map_map]
  have hmap : (splitChars s.data).map (String.data ∘ String.mk) = splitChars s.data := by
    apply List.map_id''
    intro l
    rfl
  rw [hmap, joinChars_splitChars]

/-! ### C2: behavior when no part actually changed -/

/-- C2 counterexample: on the decorated identifier `"[Name]"` with the
non-empty dictionary `[("x","y")]`, the whole-identifier lookup misses and
the rejoined parts equal the cleaned input, yet `translate_identifier`
returns the decorated original `"[Name]"`, not the undecorated `"Name"`
the claim requires. -/
theorem translate_identifier_decorated_counterexample :
    ([("x", "y")] ≠ ([] : List (String × String))) ∧
    List.lookup (pyClean "[Name]") [("x", "y")] = none ∧
    pyJoin ((pySplit (pyClean "[Name]")).map
      (fun p => (List.lookup p [("x", "y")]).getD p)) = pyClean "[Name]" ∧
    translate_identifier [("x", "y")] "[Name]" = "[Name]" ∧
    translate_identifier [("x", "y")] "[Name]" ≠ pyClean "[Name]" := by
  refine ⟨by simp, by decide, by decide, by decide, by decide⟩

/-- C2 amended: when the dictionary is non-empty, the whole-identifier lookup
misses and the per-part translation changes nothing (the rejoined result
equals the cleaned input), `translate_identifier` returns the original
identifier exactly as passed in — decorations intact — rather than the
rejoined (undecorated) string. -/
theorem translate_identifier_unchanged_returns_input
    (d : List (String × String)) (x : String) (hne : d ≠ [])
    (hmiss : List.lookup (pyClean x) d = none)
    (hsame : pyJoin ((pySplit (pyClean x)).map
      (fun p => (List.lookup p d).getD p)) = pyClean x) :
    translate_identifier d x = x := by
  unfold translate_identifier
  rw [if_neg hne]
  simp only [hmiss, hsame, if_pos]

/-- Witness for `translate_identifier_unchanged_returns_input` at
`d = [("x","y")]`, `x = "[Name]"`. -/
theorem translate_identifier_unchanged_returns_input_witness :
    translate_identifier [("x", "y")] "[Name]" = "[Name]" :=
  translate_identifier_unchanged_returns_input [("x", "y")] "[Name]"
    (by simp) (by decide) (by decide)

/-! ### C3: empty-string dictionary entries -/

/-- C3 counterexample: with the dictionary `[("foo","")]` — an entry whose
value is the empty string — `translate_identifier "foo"` returns `""`, not
the untranslated `"foo"` the claim requires. -/
theorem translate_identifier_empty_entry_counterexample :
    translate_identifier [("foo", "")] "foo" = "" ∧
    translate_identifier [("foo", "")] "foo" ≠ "foo" := by
  refine ⟨by decide, by decide⟩

/-- C3 amended: an empty-string dictionary entry is substituted like any
other value, not treated as absent: a whole-identifier entry `""` translates
the identifier to the empty string, and an empty part entry replaces that
part with the empty string in the rejoined name (e.g. `"a_b"` with
`[("a","")]` becomes `"_b"`). -/
theorem translate_identifier_empty_entry_substituted :
    (∀ (d : List (String × String)) (x : String), d ≠ [] →
      List.lookup (pyClean x) d = some "" → translate_identifier d x = "") ∧
    translate_identifier [("a", "")] "a_b" = "_b" := by
  constructor
  · intro d x hne hhit
    unfold translate_identifier
    rw [if_neg hne]
    simp only [hhit]
  · decide

/-- Witness for `translate_identifier_empty_entry_substituted` at
`d = [("foo","")]`, `x = "foo"`. -/
theorem translate_identifier_empty_entry_substituted_witness :
    translate_identifier [("foo", "")] "foo" = "" :=
  translate_identifier_empty_entry_substituted.1 [("foo", "")] "foo"
    (by simp) (by decide)

/-! ### C8: idempotence under a one-way dictionary -/

/-- C8: `translate_identifier` is idempotent under a one-way dictionary.
The hypothesis formalizes "no translated output (nor any underscore-delimited
part of one) occurs as a key": no output of the translator, as the function
itself would consult it on re-translation (i.e. after decoration stripping),
is a dictionary key, nor is any underscore-delimited part of it. -/
theorem translate_identifier_idempotent (d : List (String × String))
    (H : ∀ s : String,
      List.lookup (pyClean (translate_identifier d s)) d = none ∧
      ∀ p ∈ pySplit (pyClean (translate_identifier d s)), List.lookup p d = none)
    (x : String) :
    translate_identifier d (translate_identifier d x) = translate_identifier d x := by
  by_cases hd : d = []
  · subst hd
    simp [translate_identifier]
  · obtain ⟨h1, h2⟩ := H x
    generalize hy : translate_identifier d x = y at h1 h2
    have hparts : (pySplit (pyClean y)).map
        (fun part => (List.lookup part d).getD part) = pySplit (pyClean y) := by
      have h3 : (pySplit (pyClean y)).map
          (fun part => (List.lookup part d).getD part) =
          (pySplit (pyClean y)).map (fun p => p) :=
        List.map_congr_left (fun p hp => by rw [h2 p hp]; rfl)
      rw [h3]
      exact List.map_id' _
    unfold translate_identifier
    rw [if_neg hd]
    simp only [h1, hparts, pyJoin_pySplit, if_pos]

/-- Witness for `translate_identifier_idempotent` at the empty dictionary
(whose lookups all miss) and `x = "Schule_ID"`. -/
theorem translate_identifier_idempotent_witness :
    translate_identifier [] (translate_identifier [] "Schule_ID") =
      translate_identifier [] "Schule_ID" :=
  translate_identifier_idempotent [] (fun _ => ⟨rfl, fun _ _ => rfl⟩) "Schule_ID"

/-! ### C6: duplicate-name resolution on three identical columns -/

/-- C6: duplicate-name resolution on a table whose three columns are all
named `"Name"` (all translating to the same name under the empty dictionary)
yields the final column names `["Name", "Name_1", "Name_2"]`: columns are
processed in catalog order against a lowercased used-name set, appending
`_1`, `_2`, … on collision. -/
theorem duplicate_resolution_name_name_name :
    migrate_tables_structure_names [] [] [⟨"Name"⟩, ⟨"Name"⟩, ⟨"Name"⟩] =
      ["Name", "Name_1", "Name_2"] := by
  decide

/-! ### C1: the three copies of duplicate-name resolution agree -/

theorem dataResolveName_go_eq (fuel : Nat) :
    ∀ base used cand counter, dataResolveName.go base used cand counter fuel =
      structResolveName.go base used cand counter fuel := by
  induction fuel with
  | zero => intro base used cand counter; rfl
  | succ f ih =>
    intro base used cand counter
    show (if pyLower cand ∈ used then
        dataResolveName.go base used (base ++ "_" ++ toString counter) (counter + 1) f
      else cand) =
      (if pyLower cand ∈ used then
        structResolveName.go base used (base ++ "_" ++ toString counter) (counter + 1) f
      else cand)
    rw [ih]

theorem cfnResolveName_go_eq (fuel : Nat) :
    ∀ base used cand counter, cfnResolveName.go base used cand counter fuel =
      structResolveName.go base used cand counter fuel := by
  induction fuel with
  | zero => intro base used cand counter; rfl
  | succ f ih =>
    intro base used cand counter
    show (if pyLower cand ∈ used then
        cfnResolveName.go base used (base ++ "_" ++ toString counter) (counter + 1) f
      else cand) =
      (if pyLower cand ∈ used then
        structResolveName.go base used (base ++ "_" ++ toString counter) (counter + 1) f
      else cand)
    rw [ih]

theorem dataResolveName_eq (base : String) (used : List String) :
    dataResolveName base used = structResolveName base used :=
  dataResolveName_go_eq _ base used base 1

theorem cfnResolveName_eq (base : String) (used : List String) :
    cfnResolveName base used = structResolveName base used :=
  cfnResolveName_go_eq _ base used base 1

theorem migrate_data_final_columns_eq (d : List (String × String)) :
    ∀ used cols, migrate_data_final_columns d used cols =
      migrate_tables_structure_names d used cols := by
  intro used cols
  induction cols generalizing used with
  | nil => rfl
  | cons col rest ih =>
    show dataResolveName (translate_identifier d col.COLUMN_NAME) used ::
        migrate_data_final_columns d
          (setAdd used (pyLower (dataResolveName (translate_identifier d col.COLUMN_NAME) used))) rest =
      structResolveName (translate_identifier d col.COLUMN_NAME) used ::
        migrate_tables_structure_names d
          (setAdd used (pyLower (structResolveName (translate_identifier d col.COLUMN_NAME) used))) rest
    rw [dataResolveName_eq, ih]

theorem migrate_tables_structure_names_length (d : List (String × String)) :
    ∀ used cols, (migrate_tables_structure_names d used cols).length = cols.length := by
  intro used cols
  induction cols generalizing used with
  | nil => rfl
  | cons col rest ih =>
    show (structResolveName _ used ::
      migrate_tables_structure_names d _ rest).length = rest.length + 1
    simp [ih]

theorem get_final_column_name_eq_structure (d : List (String × String)) :
    ∀ cols used, (cols.map SourceColumn.COLUMN_NAME).Nodup →
      ∀ i (h : i < cols.length),
        get_final_column_name d (cols.get ⟨i, h⟩).COLUMN_NAME used cols =
          (migrate_tables_structure_names d used cols).getD i "" := by
  intro cols
  induction cols with
  | nil => intro used _ i h; exact absurd h (by simp)
  | cons col rest ih =>
    intro used hnd i h
    match i with
    | 0 =>
      show (if col.COLUMN_NAME = col.COLUMN_NAME then
          cfnResolveName (translate_identifier d col.COLUMN_NAME) used
        else _) = List.getD (structResolveName _ used :: migrate_tables_structure_names d _ rest) 0 ""
      rw [if_pos rfl, cfnResolveName_eq]
      rfl
    | j + 1 =>
      have hmem : ((col :: rest).get ⟨j + 1, h⟩).COLUMN_NAME ∈
          rest.map SourceColumn.COLUMN_NAME := by
        show (rest.get ⟨j, Nat.lt_of_succ_lt_succ h⟩).COLUMN_NAME ∈ _
        exact List.mem_map_of_mem _ (rest.get_mem _ _)
      have hne : ¬col.COLUMN_NAME = ((col :: rest).get ⟨j + 1, h⟩).COLUMN_NAME := by
        intro heq
        have : col.COLUMN_NAME ∈ rest.map SourceColumn.COLUMN_NAME := heq ▸ hmem
        simp only [List.map_cons, List.nodup_cons] at hnd
        exact hnd.1 this
      show (if col.COLUMN_NAME = ((col :: rest).get ⟨j + 1, h⟩).COLUMN_NAME then
          cfnResolveName (translate_identifier d col.COLUMN_NAME) used
        else get_final_column_name d ((col :: rest).get ⟨j + 1, h⟩).COLUMN_NAME
          (setAdd used (pyLower (cfnResolveName (translate_identifier d col.COLUMN_NAME) used))) rest) =
        List.getD (structResolveName _ used :: migrate_tables_structure_names d _ rest) (j + 1) ""
      rw [if_neg hne, cfnResolveName_eq]
      have hnd' : (rest.map SourceColumn.COLUMN_NAME).Nodup := by
        simp only [List.map_cons, List.nodup_cons] at hnd
        exact hnd.2
      exact ih _ hnd' j (Nat.lt_of_succ_lt_succ h)

/-- C1: for a table's ordered column list with pairwise distinct original
column names (as catalogs guarantee) and any translation dictionary, the
three independent copies of duplicate-name resolution agree: the data phase
(`migrate_data`) computes the same final column list as the DDL phase
(`migrate_tables_structure`), and the constraint phase
(`get_final_column_name`) maps each column's original name to that same final
name. -/
theorem column_resolution_phases_agree (d : List (String × String))
    (cols : List SourceColumn) (hnd : (cols.map SourceColumn.COLUMN_NAME).Nodup)
    (i : Nat) (h : i < cols.length) :
    migrate_data_final_columns d [] cols = migrate_tables_structure_names d [] cols ∧
    get_final_column_name d (cols.get ⟨i, h⟩).COLUMN_NAME [] cols =
      (migrate_tables_structure_names d [] cols).getD i "" :=
  ⟨migrate_data_final_columns_eq d [] cols,
   get_final_column_name_eq_structure d cols [] hnd i h⟩

/-- Witness for `column_resolution_phases_agree`: columns `["A","B"]` both
translating to `"X"`; the second resolves to `"X_1"` in all three phases. -/
theorem column_resolution_phases_agree_witness :
    (migrate_data_final_columns [("A", "X"), ("B", "X")] [] [⟨"A"⟩, ⟨"B"⟩] =
      migrate_tables_structure_names [("A", "X"), ("B", "X")] [] [⟨"A"⟩, ⟨"B"⟩] ∧
    get_final_column_name [("A", "X"), ("B", "X")]
        (([⟨"A"⟩, ⟨"B"⟩] : List SourceColumn).get ⟨1, by decide⟩).COLUMN_NAME []
        [⟨"A"⟩, ⟨"B"⟩] =
      (migrate_tables_structure_names [("A", "X"), ("B", "X")] [] [⟨"A"⟩, ⟨"B"⟩]).getD 1 "") ∧
    (migrate_tables_structure_names [("A", "X"), ("B", "X")] [] [⟨"A"⟩, ⟨"B"⟩]).getD 1 "" = "X_1" :=
  ⟨column_resolution_phases_agree [("A", "X"), ("B", "X")] [⟨"A"⟩, ⟨"B"⟩]
    (by decide) 1 (by decide), by decide⟩

/-! ### C4: the FK dependency graph built by the catalog reader -/

theorem mem_firstOccurrences [DecidableEq α] (l : List α) (a : α) :
    a ∈ firstOccurrences l ↔ a ∈ l := by
  have key : ∀ n (l' : List α), l'.length ≤ n → ∀ b : α,
      (b ∈ firstOccurrences l' ↔ b ∈ l') := by
    intro n
    induction n with
    | zero =>
      intro l' hl b
      have : l' = [] := List.length_eq_zero.mp (Nat.le_zero.mp hl)
      subst this
      simp [firstOccurrences]
    | succ n ih =>
      intro l' hl b
      match l' with
      | [] => simp [firstOccurrences]
      | c :: rest =>
        simp only [firstOccurrences, List.mem_cons]
        have hlen : (rest.filter (fun x => x ≠ c)).length ≤ n :=
          Nat.le_trans (List.length_filter_le _ _) (Nat.le_of_succ_le_succ hl)
        constructor
        · rintro (hb | hb)
          · exact Or.inl hb
          · have := (ih _ hlen b).mp hb
            simp only [List.mem_filter] at this
            exact Or.inr this.1
        · rintro (hb | hb)
          · exact Or.inl hb
          · by_cases hbc : b = c
            · exact Or.inl hbc
            · refine Or.inr ((ih _ hlen b).mpr ?_)
              simp only [List.mem_filter]
              exact ⟨hb, by simpa using hbc⟩
  exact key l.length l (Nat.le_refl _) a

/-- C4 counterexample: a foreign key whose parent table `other.P` lies outside
the migrated table set `["dbo.C"]` still gets its child-to-parent edge added
to the dependency graph — the reader only checks that the *child* is in the
migrated set, so the claim's "both tables are in the migrated set" fails. -/
theorem fk_dependency_outside_parent_counterexample :
    buildFKDependencies [] ["dbo.C"] [⟨"FK1", "dbo", "C", "c", "other", "P", "p"⟩] =
      [("dbo.C", "other.P")] ∧ ¬("other.P" ∈ ["dbo.C"]) := by
  refine ⟨by decide, by decide⟩

/-- C4 amended: for every foreign-key row read, the child-to-parent edge is
added exactly when the parent key differs from the child key and the *child*
table is in the migrated set — parent membership is not checked (edges whose
parent lies outside the set are instead ignored later by
`topological_sort`'s adjacency guard) — while the FK constraint metadata is
recorded for every foreign key whose child table is in the migrated set. -/
theorem fk_dependency_edges_spec (d : List (String × String))
    (tables : List String) (rows : List FKRow) :
    buildFKDependencies d tables rows =
      (rows.map (fun r => (fkChildKey d r, fkParentKey d r))).filter
        (fun e => e.2 ≠ e.1 ∧ e.1 ∈ tables) ∧
    ∀ r ∈ rows, fkChildKey d r ∈ tables →
      (fkChildKey d r, r.constraint_name) ∈ recordedFKConstraintKeys d tables rows := by
  constructor
  · induction rows with
    | nil => rfl
    | cons r rest ih =>
      show (if fkParentKey d r ≠ fkChildKey d r ∧ fkChildKey d r ∈ tables then
          (fkChildKey d r, fkParentKey d r) :: buildFKDependencies d tables rest
        else buildFKDependencies d tables rest) = _
      rw [List.map_cons, List.filter_cons]
      by_cases hc : fkParentKey d r ≠ fkChildKey d r ∧ fkChildKey d r ∈ tables
      · rw [if_pos hc, ih, if_pos (by simpa using hc)]
      · rw [if_neg hc, ih, if_neg (by simpa using hc)]
  · intro r hr hchild
    unfold recordedFKConstraintKeys
    rw [List.mem_filter]
    refine ⟨?_, by simpa using hchild⟩
    rw [mem_firstOccurrences]
    exact List.mem_map_of_mem _ hr

/-- Witness for `fk_dependency_edges_spec` on a single in-set FK row. -/
theorem fk_dependency_edges_spec_witness :
    buildFKDependencies [] ["dbo.C", "dbo.P"] [⟨"FK1", "dbo", "C", "c", "dbo", "P", "p"⟩] =
      [("dbo.C", "dbo.P")] ∧
    ("dbo.C", "FK1") ∈ recordedFKConstraintKeys [] ["dbo.C", "dbo.P"]
      [⟨"FK1", "dbo", "C", "c", "dbo", "P", "p"⟩] := by
  have h := fk_dependency_edges_spec [] ["dbo.C", "dbo.P"]
    [⟨"FK1", "dbo", "C", "c", "dbo", "P", "p"⟩]
  have hkey : fkChildKey ([] : List (String × String))
      ⟨"FK1", "dbo", "C", "c", "dbo", "P", "p"⟩ = "dbo.C" := by decide
  have h2 := h.2 ⟨"FK1", "dbo", "C", "c", "dbo", "P", "p"⟩ (by simp) (by decide)
  rw [hkey] at h2
  exact ⟨h.1.trans (by decide), h2⟩

/-! ### C7: row-count comparison issues -/

/-- C7: for a table compared by `compare_row_counts`, unequal source/target
counts append exactly one issue, of severity `error`, whose `count` is the
absolute difference; equal counts append no issue at all (in particular no
`error` or `warning` issue). -/
theorem compare_row_counts_spec (table_key : String) (source_count target_count : Int) :
    (source_count ≠ target_count →
      ∃ issue, compare_row_counts_issues table_key source_count target_count = [issue] ∧
        issue.severity = "error" ∧ issue.count = |source_count - target_count|) ∧
    (source_count = target_count →
      compare_row_counts_issues table_key source_count target_count = []) := by
  constructor
  · intro hne
    unfold compare_row_counts_issues
    rw [if_pos hne]
    exact ⟨_, rfl, rfl, rfl⟩
  · intro heq
    unfold compare_row_counts_issues
    rw [if_neg (by simp [heq])]

/-- Witness for `compare_row_counts_spec`: source=100, target=90 yields
exactly one error issue with count 10. -/
theorem compare_row_counts_spec_witness :
    ∃ issue, compare_row_counts_issues "dbo.T" 100 90 = [issue] ∧
      issue.severity = "error" ∧ issue.count = |(100 : Int) - 90| :=
  (compare_row_counts_spec "dbo.T" 100 90).1 (by decide)

/-! ### C9: commit/rollback discipline of migrate_data -/

theorem md_none {ρ ε : Type} (t : String) (ts : List String)
    (meta : List (String × TableSource ρ ε)) (hl : List.lookup t meta = none) :
    migrate_data (t :: ts) meta = migrate_data ts meta := by
  simp only [migrate_data, hl]

theorem md_ok_fst {ρ ε : Type} (t : String) (ts : List String)
    (meta : List (String × TableSource ρ ε)) (src : TableSource ρ ε)
    (hl : List.lookup t meta = some src) (he : src.err = none) :
    (migrate_data (t :: ts) meta).1 =
      (runTableTransfer t src).1 ++ (migrate_data ts meta).1 := by
  simp only [migrate_data, hl, he]

theorem md_ok_snd {ρ ε : Type} (t : String) (ts : List String)
    (meta : List (String × TableSource ρ ε)) (src : TableSource ρ ε)
    (hl : List.lookup t meta = some src) (he : src.err = none) :
    (migrate_data (t :: ts) meta).2 = (migrate_data ts meta).2 := by
  simp only [migrate_data, hl, he]

theorem md_err_fst {ρ ε : Type} (t : String) (ts : List String)
    (meta : List (String × TableSource ρ ε)) (src : TableSource ρ ε) (e : ε)
    (hl : List.lookup t meta = some src) (he : src.err = some e) :
    (migrate_data (t :: ts) meta).1 = (runTableTransfer t src).1 := by
  simp only [migrate_data, hl, he]

theorem md_err_snd {ρ ε : Type} (t : String) (ts : List String)
    (meta : List (String × TableSource ρ ε)) (src : TableSource ρ ε) (e : ε)
    (hl : List.lookup t meta = some src) (he : src.err = some e) :
    (migrate_data (t :: ts) meta).2 = some e := by
  simp only [migrate_data, hl, he]

theorem runTableTransfer_opTable {ρ ε : Type} (t : String) (src : TableSource ρ ε) :
    ∀ op ∈ (runTableTransfer t src).1, op.opTable = t := by
  intro op hop
  unfold runTableTransfer at hop
  simp only [List.mem_append, List.mem_map] at hop
  rcases hop with ⟨b, _, rfl⟩ | hop
  · rfl
  · cases he : src.err with
    | none => rw [he] at hop; simp at hop; subst hop; rfl
    | some e => rw [he] at hop; simp at hop; subst hop; rfl

theorem runTableTransfer_commit_mem {ρ ε : Type} (t u : String) (src : TableSource ρ ε)
    (h : TransferOp.commit t ∈ (runTableTransfer u src).1) : t = u ∧ src.err = none := by
  unfold runTableTransfer at h
  simp only [List.mem_append, List.mem_map] at h
  rcases h with ⟨b, _, hb⟩ | h
  · exact absurd hb (by simp)
  · cases he : src.err with
    | none => rw [he] at h; simp at h; exact ⟨h, rfl⟩
    | some e => rw [he] at h; simp at h

theorem runTableTransfer_commit_self {ρ ε : Type} (u : String) (src : TableSource ρ ε)
    (he : src.err = none) : TransferOp.commit u ∈ (runTableTransfer u src).1 := by
  unfold runTableTransfer
  rw [he]
  simp

theorem runTableTransfer_err_getLast {ρ ε : Type} (u : String) (src : TableSource ρ ε)
    (e : ε) (he : src.err = some e) :
    (runTableTransfer u src).1.getLast? = some (TransferOp.rollback u) := by
  unfold runTableTransfer
  rw [he]
  exact List.getLast?_concat _

theorem migrate_data_opTable {ρ ε : Type} :
    ∀ (ts : List String) (meta : List (String × TableSource ρ ε)) op,
      op ∈ (migrate_data ts meta).1 → op.opTable ∈ ts := by
  intro ts
  induction ts with
  | nil => intro meta op h; simp [migrate_data] at h
  | cons t rest ih =>
    intro meta op h
    cases hl : List.lookup t meta with
    | none =>
      rw [md_none t rest meta hl] at h
      exact List.mem_cons_of_mem _ (ih meta op h)
    | some src =>
      cases he : src.err with
      | none =>
        rw [md_ok_fst t rest meta src hl he] at h
        rcases List.mem_append.mp h with h | h
        · rw [runTableTransfer_opTable t src op h]; exact List.mem_cons_self _ _
        · exact List.mem_cons_of_mem _ (ih meta op h)
      | some e =>
        rw [md_err_fst t rest meta src e hl he] at h
        rw [runTableTransfer_opTable t src op h]
        exact List.mem_cons_self _ _

theorem runTableTransfer_no_commit_then_insert {ρ ε : Type} (t u : String)
    (b : List ρ) (src : TableSource ρ ε) :
    ¬List.Sublist [TransferOp.commit t, TransferOp.insertBatch t b] (runTableTransfer u src).1 := by
  intro hsub
  unfold runTableTransfer at hsub
  rw [List.sublist_append_iff] at hsub
  obtain ⟨l₁, l₂, heq, h₁, h₂⟩ := hsub
  rcases l₁ with _ | ⟨x, _ | ⟨y, l⟩⟩
  · rw [List.nil_append] at heq
    rw [← heq] at h₂
    have := h₂.length_le
    simp at this
  · simp only [List.cons_append, List.nil_append, List.cons.injEq] at heq
    obtain ⟨hx, hl₂⟩ := heq
    rw [← hl₂] at h₂
    rw [List.singleton_sublist] at h₂
    cases he : src.err with
    | none => rw [he] at h₂; simp at h₂
    | some e => rw [he] at h₂; simp at h₂
  · simp only [List.cons_append, List.cons.injEq] at heq
    obtain ⟨hx, hy, _⟩ := heq
    subst hx
    have : TransferOp.commit t ∈ src.batches.map (TransferOp.insertBatch u) :=
      h₁.subset (List.mem_cons_self _ _)
    simp at this

theorem md_commit_count {ρ ε : Type} [DecidableEq ρ] :
    ∀ (ts : List String) (meta : List (String × TableSource ρ ε)), ts.Nodup →
      ∀ t, (migrate_data ts meta).1.count (TransferOp.commit t) ≤ 1 := by
  intro ts
  induction ts with
  | nil => intro meta _ t; simp [migrate_data]
  | cons t₀ rest ih =>
    intro meta hnd t
    obtain ⟨hnotin, hnd'⟩ := List.nodup_cons.mp hnd
    cases hl : List.lookup t₀ meta with
    | none => rw [md_none t₀ rest meta hl]; exact ih meta hnd' t
    | some src =>
      cases he : src.err with
      | none =>
        rw [md_ok_fst t₀ rest meta src hl he, List.count_append]
        by_cases ht : t = t₀
        · subst ht
          have hrest : (migrate_data rest meta).1.count (TransferOp.commit t) = 0 := by
            rw [List.count_eq_zero]
            intro hmem
            exact hnotin (by simpa using migrate_data_opTable rest meta _ hmem)
          have hblock : (runTableTransfer t src).1.count (TransferOp.commit t) ≤ 1 := by
            unfold runTableTransfer
            rw [he, List.count_append]
            have hz : (src.batches.map (TransferOp.insertBatch t)).count
                (TransferOp.commit t) = 0 := by
              rw [List.count_eq_zero]; simp
            rw [hz]
            simp [List.count_cons]
          omega
        · have hblock : (runTableTransfer t₀ src).1.count (TransferOp.commit t) = 0 := by
            rw [List.count_eq_zero]
            intro hmem
            exact ht (runTableTransfer_commit_mem t t₀ src hmem).1
          rw [hblock]
          simpa using ih meta hnd' t
      | some e =>
        rw [md_err_fst t₀ rest meta src e hl he]
        have hblock : (runTableTransfer t₀ src).1.count (TransferOp.commit t) = 0 := by
          rw [List.count_eq_zero]
          intro hmem
          have h2 := (runTableTransfer_commit_mem t t₀ src hmem).2
          rw [he] at h2
          exact Option.noConfusion h2
        rw [hblock]
        omega

theorem md_no_insert_after_commit {ρ ε : Type} :
    ∀ (ts : List String) (meta : List (String × TableSource ρ ε)), ts.Nodup →
      ∀ (t : String) (b : List ρ),
        ¬List.Sublist [TransferOp.commit t, TransferOp.insertBatch t b] (migrate_data ts meta).1 := by
  intro ts
  induction ts with
  | nil => intro meta _ t b h; simp [migrate_data] at h
  | cons t₀ rest ih =>
    intro meta hnd t b hsub
    obtain ⟨hnotin, hnd'⟩ := List.nodup_cons.mp hnd
    cases hl : List.lookup t₀ meta with
    | none =>
      rw [md_none t₀ rest meta hl] at hsub
      exact ih meta hnd' t b hsub
    | some src =>
      cases he : src.err with
      | none =>
        rw [md_ok_fst t₀ rest meta src hl he] at hsub
        rw [List.sublist_append_iff] at hsub
        obtain ⟨l₁, l₂, heq, h₁, h₂⟩ := hsub
        rcases l₁ with _ | ⟨x, _ | ⟨y, l⟩⟩
        · rw [List.nil_append] at heq
          rw [← heq] at h₂
          exact ih meta hnd' t b h₂
        · simp only [List.cons_append, List.nil_append, List.cons.injEq] at heq
          obtain ⟨hx, hl₂⟩ := heq
          subst hx
          have hcomm : TransferOp.commit t ∈ (runTableTransfer t₀ src).1 :=
            h₁.subset (List.mem_cons_self _ _)
          have ht : t = t₀ := (runTableTransfer_commit_mem t t₀ src hcomm).1
          rw [← hl₂, List.singleton_sublist] at h₂
          have : (TransferOp.insertBatch t b).opTable ∈ rest :=
            migrate_data_opTable rest meta _ h₂
          rw [TransferOp.opTable, ht] at this
          exact hnotin this
        · simp only [List.cons_append, List.cons.injEq] at heq
          obtain ⟨hx, hy, _⟩ := heq
          subst hx
          subst hy
          have : List.Sublist [TransferOp.commit t, TransferOp.insertBatch t b]
              (runTableTransfer t₀ src).1 :=
            (List.sublist_append_left [TransferOp.commit t,
              TransferOp.insertBatch t b] l).trans h₁
          exact runTableTransfer_no_commit_then_insert t t₀ b src this
      | some e =>
        rw [md_err_fst t₀ rest meta src e hl he] at hsub
        exact runTableTransfer_no_commit_then_insert t t₀ b src hsub

theorem md_success_commits {ρ ε : Type} :
    ∀ (ts : List String) (meta : List (String × TableSource ρ ε)),
      (migrate_data ts meta).2 = none →
      ∀ t ∈ ts, ∀ src, List.lookup t meta = some src →
        TransferOp.commit t ∈ (migrate_data ts meta).1 := by
  intro ts
  induction ts with
  | nil => intro meta _ t ht; exact absurd ht (by simp)
  | cons t₀ rest ih =>
    intro meta hres t ht src hsrc
    cases hl : List.lookup t₀ meta with
    | none =>
      rw [md_none t₀ rest meta hl] at hres ⊢
      rcases List.mem_cons.mp ht with rfl | ht'
      · rw [hsrc] at hl; exact Option.noConfusion hl
      · exact ih meta hres t ht' src hsrc
    | some src₀ =>
      cases he : src₀.err with
      | none =>
        rw [md_ok_snd t₀ rest meta src₀ hl he] at hres
        rw [md_ok_fst t₀ rest meta src₀ hl he]
        rcases List.mem_cons.mp ht with rfl | ht'
        · exact List.mem_append.mpr (Or.inl (runTableTransfer_commit_self t src₀ he))
        · exact List.mem_append.mpr (Or.inr (ih meta hres t ht' src hsrc))
      | some e =>
        rw [md_err_snd t₀ rest meta src₀ e hl he] at hres
        exact Option.noConfusion hres

theorem md_failure_spec {ρ ε : Type} :
    ∀ (ts : List String) (meta : List (String × TableSource ρ ε)), ts.Nodup →
      ∀ e, (migrate_data ts meta).2 = some e →
      ∃ pre t post src, ts = pre ++ t :: post ∧
        List.lookup t meta = some src ∧ src.err = some e ∧
        (migrate_data ts meta).1.getLast? = some (TransferOp.rollback t) ∧
        TransferOp.commit t ∉ (migrate_data ts meta).1 ∧
        ∀ u ∈ post, ∀ op ∈ (migrate_data ts meta).1, op.opTable ≠ u := by
  intro ts
  induction ts with
  | nil => intro meta _ e hres; simp [migrate_data] at hres
  | cons t₀ rest ih =>
    intro meta hnd e hres
    obtain ⟨hnotin, hnd'⟩ := List.nodup_cons.mp hnd
    cases hl : List.lookup t₀ meta with
    | none =>
      rw [md_none t₀ rest meta hl] at hres
      obtain ⟨pre, t, post, src, heq, hsrc, herr, hlast, hnc, hpost⟩ :=
        ih meta hnd' e hres
      refine ⟨t₀ :: pre, t, post, src, by rw [heq, List.cons_append], hsrc, herr, ?_, ?_, ?_⟩
      · rw [md_none t₀ rest meta hl]; exact hlast
      · rw [md_none t₀ rest meta hl]; exact hnc
      · rw [md_none t₀ rest meta hl]; exact hpost
    | some src₀ =>
      cases he : src₀.err with
      | none =>
        rw [md_ok_snd t₀ rest meta src₀ hl he] at hres
        obtain ⟨pre, t, post, src, heq, hsrc, herr, hlast, hnc, hpost⟩ :=
          ih meta hnd' e hres
        have htrest : t ∈ rest := by rw [heq]; simp
        refine ⟨t₀ :: pre, t, post, src, by rw [heq, List.cons_append], hsrc, herr, ?_, ?_, ?_⟩
        · rw [md_ok_fst t₀ rest meta src₀ hl he, List.getLast?_append, hlast]
          rfl
        · rw [md_ok_fst t₀ rest meta src₀ hl he]
          intro hmem
          rcases List.mem_append.mp hmem with hmem | hmem
          · have ht : t = t₀ := (runTableTransfer_commit_mem t t₀ src₀ hmem).1
            rw [ht] at htrest
            exact hnotin htrest
          · exact hnc hmem
        · rw [md_ok_fst t₀ rest meta src₀ hl he]
          intro u hu op hop
          rcases List.mem_append.mp hop with hop | hop
          · rw [runTableTransfer_opTable t₀ src₀ op hop]
            intro huv
            have : u ∈ rest := by rw [heq]; simp [hu]
            rw [← huv] at this
            exact hnotin this
          · exact hpost u hu op hop
      | some e₀ =>
        rw [md_err_snd t₀ rest meta src₀ e₀ hl he] at hres
        have hee : e₀ = e := by injection hres
        subst hee
        refine ⟨[], t₀, rest, src₀, rfl, hl, he, ?_, ?_, ?_⟩
        · rw [md_err_fst t₀ rest meta src₀ e₀ hl he]
          exact runTableTransfer_err_getLast t₀ src₀ e₀ he
        · rw [md_err_fst t₀ rest meta src₀ e₀ hl he]
          intro hmem
          have h2 := (runTableTransfer_commit_mem t₀ t₀ src₀ hmem).2
          rw [he] at h2
          exact Option.noConfusion h2
        · rw [md_err_fst t₀ rest meta src₀ e₀ hl he]
          intro u hu op hop
          rw [runTableTransfer_opTable t₀ src₀ op hop]
          intro huv
          rw [← huv] at hu
          exact hnotin hu

/-- C9: `migrate_data` commits each table exactly once, after all of that
table's batch inserts; a database error while transferring a table rolls back
that table's open transaction, re-raises the exception, never commits the
failing table (so no partially committed table exists), and leaves every
table after the failing one unprocessed. -/
theorem migrate_data_commit_discipline {ρ ε : Type} [DecidableEq ρ]
    (sorted_tables : List String) (meta : List (String × TableSource ρ ε))
    (hnd : sorted_tables.Nodup) :
    (∀ t : String,
      (migrate_data sorted_tables meta).1.count (TransferOp.commit t) ≤ 1 ∧
      ∀ b : List ρ, ¬List.Sublist [TransferOp.commit t, TransferOp.insertBatch t b]
        (migrate_data sorted_tables meta).1) ∧
    ((migrate_data sorted_tables meta).2 = none →
      ∀ t ∈ sorted_tables, ∀ src, List.lookup t meta = some src →
        TransferOp.commit t ∈ (migrate_data sorted_tables meta).1) ∧
    (∀ e, (migrate_data sorted_tables meta).2 = some e →
      ∃ pre t post src, sorted_tables = pre ++ t :: post ∧
        List.lookup t meta = some src ∧ src.err = some e ∧
        (migrate_data sorted_tables meta).1.getLast? =
          some (TransferOp.rollback t) ∧
        TransferOp.commit t ∉ (migrate_data sorted_tables meta).1 ∧
        ∀ u ∈ post, ∀ op ∈ (migrate_data sorted_tables meta).1,
          op.opTable ≠ u) :=
  ⟨fun t => ⟨md_commit_count sorted_tables meta hnd t,
    fun b => md_no_insert_after_commit sorted_tables meta hnd t b⟩,
   md_success_commits sorted_tables meta,
   md_failure_spec sorted_tables meta hnd⟩

/-- Witness for `migrate_data_commit_discipline` on a concrete one-table run
that succeeds: the table's commit appears in the trace. -/
theorem migrate_data_commit_discipline_witness :
    TransferOp.commit "T1" ∈
      (migrate_data ["T1"] [("T1", (⟨[[42]], none⟩ : TableSource Nat String))]).1 :=
  (migrate_data_commit_discipline ["T1"]
      [("T1", (⟨[[42]], none⟩ : TableSource Nat String))] (by decide)).2.1
    rfl "T1" (by decide) ⟨[[42]], none⟩ rfl

/-! ### C5 / C10: Kahn's algorithm -/

theorem processChildren_cons (v : String) (vs : List String) (indeg : String → Int) :
    processChildren (v :: vs) indeg =
      (if (if v = v then indeg v - 1 else indeg v) = 0 then
        ((processChildren vs (fun y => if y = v then indeg y - 1 else indeg y)).1,
         v :: (processChildren vs (fun y => if y = v then indeg y - 1 else indeg y)).2)
      else processChildren vs (fun y => if y = v then indeg y - 1 else indeg y)) := rfl

theorem processChildren_fst (vs : List String) :
    ∀ (indeg : String → Int) (x : String),
      (processChildren vs indeg).1 x = indeg x - (vs.count x : Int) := by
  induction vs with
  | nil => intro indeg x; simp [processChildren]
  | cons v vs ih =>
    intro indeg x
    rw [processChildren_cons, if_pos rfl]
    have hgoal : (processChildren vs (fun y => if y = v then indeg y - 1 else indeg y)).1 x =
        indeg x - ((v :: vs).count x : Int) := by
      rw [ih]
      by_cases hxv : x = v
      · subst hxv
        rw [if_pos rfl, List.count_cons_self]
        push_cast
        omega
      · rw [if_neg hxv, List.count_cons_of_ne hxv]
    by_cases hz : indeg v - 1 = 0
    · rw [if_pos hz]; exact hgoal
    · rw [if_neg hz]; exact hgoal

theorem processChildren_snd_mem (vs : List String) :
    ∀ (indeg : String → Int) (x : String),
      x ∈ (processChildren vs indeg).2 ↔
        1 ≤ indeg x ∧ indeg x ≤ (vs.count x : Int) := by
  induction vs with
  | nil =>
    intro indeg x
    simp only [processChildren, List.not_mem_nil, false_iff, List.count_nil]
    push_cast
    omega
  | cons v vs ih =>
    intro indeg x
    rw [processChildren_cons]
    rw [if_pos rfl]
    by_cases hxv : x = v
    · subst hxv
      rw [List.count_cons_self]
      by_cases hz : indeg x - 1 = 0
      · rw [if_pos hz]
        simp only [List.mem_cons, true_or, true_iff]
        push_cast
        omega
      · rw [if_neg hz, ih]
        rw [if_pos rfl]
        push_cast
        omega
    · rw [List.count_cons_of_ne (fun h => hxv (by simpa using h))]
      by_cases hz : indeg v - 1 = 0
      · rw [if_pos hz]
        simp only [List.mem_cons, hxv, false_or]
        rw [ih, if_neg hxv]
      · rw [if_neg hz, ih, if_neg hxv]

theorem processChildren_snd_nodup (vs : List String) :
    ∀ (indeg : String → Int), (processChildren vs indeg).2.Nodup := by
  induction vs with
  | nil => intro indeg; simp [processChildren]
  | cons v vs ih =>
    intro indeg
    rw [processChildren_cons, if_pos rfl]
    by_cases hz : indeg v - 1 = 0
    · rw [if_pos hz]
      refine List.nodup_cons.mpr ⟨?_, ih _⟩
      intro hmem
      rw [processChildren_snd_mem] at hmem
      rw [if_pos rfl] at hmem
      omega
    · rw [if_neg hz]
      exact ih _

theorem processChildren_snd_subset (vs : List String) (indeg : String → Int)
    (x : String) (hx : x ∈ (processChildren vs indeg).2) : x ∈ vs := by
  rw [processChildren_snd_mem] at hx
  have : 0 < vs.count x := by omega
  exact List.count_pos_iff.mp this

theorem addEdges_fst (tables : List String) :
    ∀ (edges : List (String × String)) (adj : String → List String)
      (indeg : String → Int) (w : String),
      (addEdges tables edges adj indeg).1 w =
        adj w ++ ((keptEdges tables edges).filter (fun e => e.2 = w)).map Prod.fst := by
  intro edges
  induction edges with
  | nil => intro adj indeg w; simp [addEdges, keptEdges]
  | cons e rest ih =>
    intro adj indeg w
    obtain ⟨u, v⟩ := e
    rw [show addEdges tables ((u, v) :: rest) adj indeg =
        (if u ∈ tables ∧ v ∈ tables then
          addEdges tables rest
            (fun x => if x = v then adj x ++ [u] else adj x)
            (fun x => if x = u then indeg x + 1 else indeg x)
        else addEdges tables rest adj indeg) from rfl]
    by_cases hk : u ∈ tables ∧ v ∈ tables
    · rw [if_pos hk, ih]
      have hkept : keptEdges tables ((u, v) :: rest) =
          (u, v) :: keptEdges tables rest := by
        unfold keptEdges
        rw [List.filter_cons, if_pos (by simpa using hk)]
      rw [hkept, List.filter_cons]
      by_cases hw : v = w
      · subst hw
        rw [if_pos (show decide ((u, v).2 = v) = true by simp), List.map_cons]
        simp [List.append_assoc]
      · rw [if_neg (show ¬decide ((u, v).2 = w) = true by simp [hw]),
          if_neg (fun h => hw h.symm)]
    · rw [if_neg hk, ih]
      have hkept : keptEdges tables ((u, v) :: rest) = keptEdges tables rest := by
        unfold keptEdges
        rw [List.filter_cons, if_neg (by simpa using hk)]
      rw [hkept]

theorem addEdges_snd (tables : List String) :
    ∀ (edges : List (String × String)) (adj : String → List String)
      (indeg : String → Int) (w : String),
      (addEdges tables edges adj indeg).2 w =
        indeg w + (((keptEdges tables edges).filter (fun e => e.1 = w)).length : Int) := by
  intro edges
  induction edges with
  | nil => intro adj indeg w; simp [addEdges, keptEdges]
  | cons e rest ih =>
    intro adj indeg w
    obtain ⟨u, v⟩ := e
    rw [show addEdges tables ((u, v) :: rest) adj indeg =
        (if u ∈ tables ∧ v ∈ tables then
          addEdges tables rest
            (fun x => if x = v then adj x ++ [u] else adj x)
            (fun x => if x = u then indeg x + 1 else indeg x)
        else addEdges tables rest adj indeg) from rfl]
    by_cases hk : u ∈ tables ∧ v ∈ tables
    · rw [if_pos hk, ih]
      have hkept : keptEdges tables ((u, v) :: rest) =
          (u, v) :: keptEdges tables rest := by
        unfold keptEdges
        rw [List.filter_cons, if_pos (by simpa using hk)]
      rw [hkept, List.filter_cons]
      by_cases hw : u = w
      · subst hw
        rw [if_pos (show decide ((u, v).1 = u) = true by simp), List.length_cons,
          if_pos rfl]
        push_cast
        omega
      · rw [if_neg (show ¬decide ((u, v).1 = w) = true by simp [hw]),
          if_neg (fun h => hw h.symm)]
    · rw [if_neg hk, ih]
      have hkept : keptEdges tables ((u, v) :: rest) = keptEdges tables rest := by
        unfold keptEdges
        rw [List.filter_cons, if_neg (by simpa using hk)]
      rw [hkept]

theorem keptEdges_mem (tables : List String) (edges : List (String × String))
    (e : String × String) (he : e ∈ keptEdges tables edges) :
    e.1 ∈ tables ∧ e.2 ∈ tables := by
  unfold keptEdges at he
  rw [List.mem_filter] at he
  simpa using he.2

theorem count_map_fst_filter (ve : List (String × String)) (u x : String) :
    ((ve.filter (fun e => e.2 = u)).map Prod.fst).count x =
      (ve.filter (fun e => e.1 = x ∧ e.2 = u)).length := by
  induction ve with
  | nil => simp
  | cons e rest ih =>
    obtain ⟨a, b⟩ := e
    rw [List.filter_cons, List.filter_cons]
    by_cases hb : b = u
    · rw [if_pos (by simpa using hb), List.map_cons]
      by_cases ha : a = x
      · subst ha
        rw [if_pos (by simp [hb]), List.length_cons, List.count_cons_self, ih]
      · rw [if_neg (by simp [ha]), List.count_cons_of_ne (fun h => ha h.symm), ih]
    · rw [if_neg (by simpa using hb), if_neg (by simp [hb]), ih]

theorem remIndeg_nonneg (ve : List (String × String)) (done : List String)
    (x : String) : 0 ≤ remIndeg ve done x := by
  unfold remIndeg
  positivity

theorem remIndeg_zero_parents (ve : List (String × String)) (done : List String)
    (x : String) (h : remIndeg ve done x = 0) :
    ∀ e ∈ ve, e.1 = x → e.2 ∈ done := by
  intro e he hx
  by_contra hnot
  unfold remIndeg at h
  have hmem : e ∈ ve.filter (fun e => e.1 = x ∧ ¬e.2 ∈ done) :=
    List.mem_filter.mpr ⟨he, by simp [hx, hnot]⟩
  have : 0 < (ve.filter (fun e => e.1 = x ∧ ¬e.2 ∈ done)).length :=
    List.length_pos.mpr (List.ne_nil_of_mem hmem)
  omega

theorem remIndeg_pos_parent (ve : List (String × String)) (done : List String)
    (x : String) (h : 1 ≤ remIndeg ve done x) :
    ∃ e ∈ ve, e.1 = x ∧ ¬e.2 ∈ done := by
  unfold remIndeg at h
  have hne : ve.filter (fun e => e.1 = x ∧ ¬e.2 ∈ done) ≠ [] := by
    intro hnil
    rw [hnil] at h
    simp at h
  obtain ⟨e, he⟩ := List.exists_mem_of_ne_nil _ hne
  have := List.mem_filter.mp he
  refine ⟨e, this.1, by simpa using this.2⟩

theorem remIndeg_pop (ve : List (String × String)) (done : List String)
    (u : String) (hu : u ∉ done) (x : String) :
    remIndeg ve (done ++ [u]) x =
      remIndeg ve done x - ((ve.filter (fun e => e.1 = x ∧ e.2 = u)).length : Int) := by
  unfold remIndeg
  induction ve with
  | nil => simp
  | cons e rest ih =>
    rw [List.filter_cons, List.filter_cons, List.filter_cons]
    by_cases hx : e.1 = x
    · by_cases hu2 : e.2 = u
      · have hd : ¬e.2 ∈ done := by rw [hu2]; exact hu
        rw [if_pos (show decide (e.1 = x ∧ ¬e.2 ∈ done) = true by simp [hx, hd]),
          if_neg (show ¬decide (e.1 = x ∧ ¬e.2 ∈ done ++ [u]) = true by
            simp [hx, hu2]),
          if_pos (show decide (e.1 = x ∧ e.2 = u) = true by simp [hx, hu2])]
        simp only [List.length_cons]
        push_cast
        omega
      · by_cases hd : e.2 ∈ done
        · rw [if_neg (show ¬decide (e.1 = x ∧ ¬e.2 ∈ done) = true by simp [hd]),
            if_neg (show ¬decide (e.1 = x ∧ ¬e.2 ∈ done ++ [u]) = true by
              simp [hd]),
            if_neg (show ¬decide (e.1 = x ∧ e.2 = u) = true by simp [hu2])]
          exact ih
        · rw [if_pos (show decide (e.1 = x ∧ ¬e.2 ∈ done) = true by simp [hx, hd]),
            if_pos (show decide (e.1 = x ∧ ¬e.2 ∈ done ++ [u]) = true by
              simp [hx, hd, hu2]),
            if_neg (show ¬decide (e.1 = x ∧ e.2 = u) = true by simp [hu2])]
          simp only [List.length_cons]
          push_cast
          push_cast at ih
          omega
    · rw [if_neg (show ¬decide (e.1 = x ∧ ¬e.2 ∈ done) = true by simp [hx]),
        if_neg (show ¬decide (e.1 = x ∧ ¬e.2 ∈ done ++ [u]) = true by simp [hx]),
        if_neg (show ¬decide (e.1 = x ∧ e.2 = u) = true by simp [hx])]
      exact ih

theorem append_singleton_split (l : List α) (a : α) (o₁ o₂ : List α) (x : α)
    (h : l ++ [a] = o₁ ++ x :: o₂) :
    (o₁ = l ∧ x = a ∧ o₂ = []) ∨ (∃ o₃, o₂ = o₃ ++ [a] ∧ l = o₁ ++ x :: o₃) := by
  rcases List.eq_nil_or_concat o₂ with rfl | ⟨o₃, b, rfl⟩
  · left
    have h2 := List.append_inj' h (by simp)
    obtain ⟨h3, h4⟩ := h2
    exact ⟨h3.symm, by injection h4 with h5; exact h5.symm, rfl⟩
  · right
    rw [List.concat_eq_append] at h
    rw [show o₁ ++ x :: (o₃ ++ [b]) = (o₁ ++ x :: o₃) ++ [b] by simp] at h
    have h2 := List.append_inj' h (by simp)
    obtain ⟨h3, h4⟩ := h2
    have hb : a = b := by injection h4
    exact ⟨o₃, by rw [List.concat_eq_append, hb], h3⟩

theorem kahn_step (tables : List String) (ve : List (String × String))
    (adj : String → List String)
    (hadj : ∀ w, adj w = (ve.filter (fun e => e.2 = w)).map Prod.fst)
    (hve : ∀ e ∈ ve, e.1 ∈ tables ∧ e.2 ∈ tables)
    (u : String) (rest : List String) (in_degree : String → Int)
    (order : List String)
    (hinv : KahnInv tables ve (u :: rest) in_degree order) :
    KahnInv tables ve (rest ++ (processChildren (adj u) in_degree).2)
      (processChildren (adj u) in_degree).1 (order ++ [u]) := by
  obtain ⟨hnd, htbl, hzero, hrem, hpend, hbefore⟩ := hinv
  have hpm : List.Perm (order ++ u :: rest) (u :: (order ++ rest)) :=
    List.perm_middle
  have hndperm : (u :: (order ++ rest)).Nodup := hpm.nodup_iff.mp hnd
  have hu_or : u ∉ order ++ rest := (List.nodup_cons.mp hndperm).1
  have hu_notin_order : u ∉ order := fun h => hu_or (List.mem_append.mpr (Or.inl h))
  have hu_notin_rest : u ∉ rest := fun h => hu_or (List.mem_append.mpr (Or.inr h))
  have hcnt : ∀ x, ((adj u).count x : Int) =
      ((ve.filter (fun e => e.1 = x ∧ e.2 = u)).length : Int) := by
    intro x
    rw [hadj, count_map_fst_filter]
  have hfst : ∀ x, (processChildren (adj u) in_degree).1 x =
      in_degree x - ((ve.filter (fun e => e.1 = x ∧ e.2 = u)).length : Int) := by
    intro x
    rw [processChildren_fst, hcnt]
  have hzmem : ∀ x, x ∈ (processChildren (adj u) in_degree).2 ↔
      1 ≤ in_degree x ∧
        in_degree x ≤ ((ve.filter (fun e => e.1 = x ∧ e.2 = u)).length : Int) := by
    intro x
    rw [processChildren_snd_mem, hcnt]
  -- a table already emitted or queued has no kept edge into `u`
  have hnoedge : ∀ x ∈ order ++ u :: rest,
      (ve.filter (fun e => e.1 = x ∧ e.2 = u)).length = 0 := by
    intro x hx
    by_contra hne
    have hpos : 0 < (ve.filter (fun e => e.1 = x ∧ e.2 = u)).length :=
      Nat.pos_of_ne_zero hne
    obtain ⟨e, he⟩ := List.exists_mem_of_ne_nil _
      (List.ne_nil_of_length_pos hpos)
    have hef := List.mem_filter.mp he
    have hx2 : e.1 = x ∧ e.2 = u := by simpa using hef.2
    have hz : in_degree x = 0 := hzero x hx
    rw [hrem] at hz
    have := remIndeg_zero_parents ve order x hz e hef.1 hx2.1
    rw [hx2.2] at this
    exact hu_notin_order this
  have hfst_old : ∀ x ∈ order ++ u :: rest,
      (processChildren (adj u) in_degree).1 x = in_degree x := by
    intro x hx
    rw [hfst, hnoedge x hx]
    push_cast
    omega
  have hrem' : ∀ x, (processChildren (adj u) in_degree).1 x =
      remIndeg ve (order ++ [u]) x := by
    intro x
    rw [hfst, hrem, remIndeg_pop ve order u hu_notin_order x]
  have hznew : ∀ x ∈ (processChildren (adj u) in_degree).2,
      (processChildren (adj u) in_degree).1 x = 0 := by
    intro x hx
    have h1 := (hzmem x).mp hx
    have h2 := hfst x
    have h3 := hrem' x ▸ remIndeg_nonneg ve (order ++ [u]) x
    omega
  have hzs_tables : ∀ x ∈ (processChildren (adj u) in_degree).2, x ∈ tables := by
    intro x hx
    have := processChildren_snd_subset _ _ _ hx
    rw [hadj] at this
    obtain ⟨e, hef, hfe⟩ := List.mem_map.mp this
    have := (hve e (List.mem_filter.mp hef).1).1
    rw [hfe] at this
    exact this
  have hmem_iff : ∀ x, x ∈ (order ++ [u]) ++
      (rest ++ (processChildren (adj u) in_degree).2) ↔
      x ∈ order ++ u :: rest ∨ x ∈ (processChildren (adj u) in_degree).2 := by
    intro x
    simp only [List.mem_append, List.mem_cons]
    tauto
  refine ⟨?_, ?_, ?_, hrem', ?_, ?_⟩
  · -- nodup
    rw [show (order ++ [u]) ++ (rest ++ (processChildren (adj u) in_degree).2) =
        (order ++ u :: rest) ++ (processChildren (adj u) in_degree).2 by simp]
    rw [List.nodup_append]
    refine ⟨hnd, processChildren_snd_nodup _ _, ?_⟩
    intro x hx hx2
    have h1 := hzero x hx
    have h2 := ((hzmem x).mp hx2).1
    omega
  · intro x hx
    rcases (hmem_iff x).mp hx with hx | hx
    · exact htbl x hx
    · exact hzs_tables x hx
  · intro x hx
    rcases (hmem_iff x).mp hx with hx | hx
    · rw [hfst_old x hx]
      exact hzero x hx
    · exact hznew x hx
  · intro x hx hnmem
    have hnold : x ∉ order ++ u :: rest := fun h =>
      hnmem ((hmem_iff x).mpr (Or.inl h))
    have hnzs : x ∉ (processChildren (adj u) in_degree).2 := fun h =>
      hnmem ((hmem_iff x).mpr (Or.inr h))
    have h1 := hpend x hx hnold
    have h2 := hfst x
    by_contra hlt
    have h3 : (processChildren (adj u) in_degree).1 x ≤ 0 := by omega
    have h4 : in_degree x ≤
        ((ve.filter (fun e => e.1 = x ∧ e.2 = u)).length : Int) := by omega
    exact hnzs ((hzmem x).mpr ⟨h1, h4⟩)
  · intro o₁ x o₂ hsplit e he hex
    rcases append_singleton_split order u o₁ o₂ x hsplit with
      ⟨ho₁, hx, _⟩ | ⟨o₃, _, horder⟩
    · rw [ho₁]
      have hz : in_degree u = 0 := hzero u (by simp)
      rw [hrem] at hz
      exact remIndeg_zero_parents ve order u hz e he (hx ▸ hex)
    · exact hbefore o₁ x o₃ horder e he hex

theorem kahn_master (tables : List String) (ve : List (String × String))
    (adj : String → List String)
    (hadj : ∀ w, adj w = (ve.filter (fun e => e.2 = w)).map Prod.fst)
    (hve : ∀ e ∈ ve, e.1 ∈ tables ∧ e.2 ∈ tables) :
    ∀ (fuel : Nat) (queue : List String) (in_degree : String → Int)
      (order : List String),
      KahnInv tables ve queue in_degree order →
      tables.length < order.length + fuel →
      ∃ orderF in_degreeF,
        kahnLoop adj fuel queue in_degree order = orderF ∧
        KahnInv tables ve [] in_degreeF orderF := by
  intro fuel
  induction fuel with
  | zero =>
    intro queue in_degree order hinv hbound
    obtain ⟨hnd, htbl, _, _, _, _⟩ := hinv
    have hsub : order.Nodup := (List.sublist_append_left order queue).nodup hnd
    have hsubset : order ⊆ tables := fun x hx =>
      htbl x (List.mem_append.mpr (Or.inl hx))
    have := (List.subperm_of_subset hsub hsubset).length_le
    omega
  | succ fuel ih =>
    intro queue in_degree order hinv hbound
    match queue with
    | [] => exact ⟨order, in_degree, rfl, hinv⟩
    | u :: rest =>
      have hstep := kahn_step tables ve adj hadj hve u rest in_degree order hinv
      have hlen : tables.length < (order ++ [u]).length + fuel := by
        rw [List.length_append]
        simp only [List.length_singleton]
        omega
      obtain ⟨orderF, in_degreeF, hloop, hinvF⟩ :=
        ih (rest ++ (processChildren (adj u) in_degree).2)
          (processChildren (adj u) in_degree).1 (order ++ [u]) hstep hlen
      exact ⟨orderF, in_degreeF, hloop, hinvF⟩

theorem kahn_final (dependencies : List (String × List String))
    (all_tables : List String) (hnd : all_tables.Nodup) :
    ∃ orderF : List String,
      orderF.Nodup ∧ (∀ x ∈ orderF, x ∈ all_tables) ∧
      (∀ x ∈ all_tables, x ∉ orderF →
        ∃ e ∈ keptEdges all_tables (depEdges dependencies),
          e.1 = x ∧ ¬e.2 ∈ orderF) ∧
      (∀ o₁ x o₂, orderF = o₁ ++ x :: o₂ →
        ∀ e ∈ keptEdges all_tables (depEdges dependencies), e.1 = x → e.2 ∈ o₁) ∧
      topological_sort dependencies all_tables =
        (if orderF.length = all_tables.length then orderF
         else orderF ++
           firstOccurrences (all_tables.filter (fun t => ¬t ∈ orderF))) := by
  have hadj : ∀ w,
      (addEdges all_tables (depEdges dependencies) (fun _ => []) (fun _ => 0)).1 w =
        ((keptEdges all_tables (depEdges dependencies)).filter
          (fun e => e.2 = w)).map Prod.fst := by
    intro w
    rw [addEdges_fst]
    exact List.nil_append _
  have hindeg0 : ∀ w,
      (addEdges all_tables (depEdges dependencies) (fun _ => []) (fun _ => 0)).2 w =
        (((keptEdges all_tables (depEdges dependencies)).filter
          (fun e => e.1 = w)).length : Int) := by
    intro w
    rw [addEdges_snd]
    omega
  have hve : ∀ e ∈ keptEdges all_tables (depEdges dependencies),
      e.1 ∈ all_tables ∧ e.2 ∈ all_tables :=
    keptEdges_mem all_tables (depEdges dependencies)
  have hrem0 : ∀ w,
      (addEdges all_tables (depEdges dependencies) (fun _ => []) (fun _ => 0)).2 w =
        remIndeg (keptEdges all_tables (depEdges dependencies)) [] w := by
    intro w
    rw [hindeg0]
    unfold remIndeg
    congr 1
    apply congrArg
    apply List.filter_congr
    intro e _
    simp
  have hinv0 : KahnInv all_tables (keptEdges all_tables (depEdges dependencies))
      (all_tables.filter (fun u =>
        (addEdges all_tables (depEdges dependencies) (fun _ => []) (fun _ => 0)).2 u = 0))
      (addEdges all_tables (depEdges dependencies) (fun _ => []) (fun _ => 0)).2
      [] := by
    refine ⟨?_, ?_, ?_, hrem0, ?_, ?_⟩
    · rw [List.nil_append]
      exact hnd.filter _
    · intro x hx
      rw [List.nil_append] at hx
      exact (List.mem_filter.mp hx).1
    · intro x hx
      rw [List.nil_append] at hx
      have := (List.mem_filter.mp hx).2
      simpa using this
    · intro x hx hnx
      rw [List.nil_append] at hnx
      have hne : ¬(addEdges all_tables (depEdges dependencies)
          (fun _ => []) (fun _ => 0)).2 x = 0 := by
        intro hz
        exact hnx (List.mem_filter.mpr ⟨hx, by simpa using hz⟩)
      have hge := hindeg0 x
      omega
    · intro o₁ x o₂ hsplit
      exact absurd hsplit (by simp)
  obtain ⟨orderF, in_degreeF, hloop, hinvF⟩ :=
    kahn_master all_tables (keptEdges all_tables (depEdges dependencies))
      (addEdges all_tables (depEdges dependencies) (fun _ => []) (fun _ => 0)).1
      hadj hve
      (all_tables.length + (depEdges dependencies).length + 1)
      (all_tables.filter (fun u =>
        (addEdges all_tables (depEdges dependencies) (fun _ => []) (fun _ => 0)).2 u = 0))
      (addEdges all_tables (depEdges dependencies) (fun _ => []) (fun _ => 0)).2
      [] hinv0 (by simp; omega)
  obtain ⟨hndF, htblF, hzeroF, hremF, hpendF, hbeforeF⟩ := hinvF
  refine ⟨orderF, ?_, ?_, ?_, ?_, ?_⟩
  · simpa using hndF
  · intro x hx
    exact htblF x (by simpa using hx)
  · intro x hx hnx
    have h1 := hpendF x hx (by simpa using hnx)
    rw [hremF] at h1
    exact remIndeg_pos_parent _ _ _ h1
  · exact hbeforeF
  · show (if (kahnLoop
        (addEdges all_tables (depEdges dependencies) (fun _ => []) (fun _ => 0)).1
        (all_tables.length + (depEdges dependencies).length + 1)
        (all_tables.filter (fun u =>
          (addEdges all_tables (depEdges dependencies) (fun _ => []) (fun _ => 0)).2 u = 0))
        (addEdges all_tables (depEdges dependencies) (fun _ => []) (fun _ => 0)).2
        []).length = all_tables.length
      then kahnLoop
        (addEdges all_tables (depEdges dependencies) (fun _ => []) (fun _ => 0)).1
        (all_tables.length + (depEdges dependencies).length + 1)
        (all_tables.filter (fun u =>
          (addEdges all_tables (depEdges dependencies) (fun _ => []) (fun _ => 0)).2 u = 0))
        (addEdges all_tables (depEdges dependencies) (fun _ => []) (fun _ => 0)).2
        []
      else (kahnLoop
        (addEdges all_tables (depEdges dependencies) (fun _ => []) (fun _ => 0)).1
        (all_tables.length + (depEdges dependencies).length + 1)
        (all_tables.filter (fun u =>
          (addEdges all_tables (depEdges dependencies) (fun _ => []) (fun _ => 0)).2 u = 0))
        (addEdges all_tables (depEdges dependencies) (fun _ => []) (fun _ => 0)).2
        []) ++
        firstOccurrences (all_tables.filter (fun t => ¬t ∈ kahnLoop
          (addEdges all_tables (depEdges dependencies) (fun _ => []) (fun _ => 0)).1
          (all_tables.length + (depEdges dependencies).length + 1)
          (all_tables.filter (fun u =>
            (addEdges all_tables (depEdges dependencies) (fun _ => []) (fun _ => 0)).2 u = 0))
          (addEdges all_tables (depEdges dependencies) (fun _ => []) (fun _ => 0)).2
          []))) =
      (if orderF.length = all_tables.length then orderF
       else orderF ++ firstOccurrences (all_tables.filter (fun t => ¬t ∈ orderF)))
    rw [hloop]

theorem firstOccurrences_of_nodup [DecidableEq α] :
    ∀ (l : List α), l.Nodup → firstOccurrences l = l := by
  intro l
  induction l with
  | nil => intro _; simp [firstOccurrences]
  | cons a rest ih =>
    intro hnd
    obtain ⟨hna, hnd'⟩ := List.nodup_cons.mp hnd
    simp only [firstOccurrences]
    have hfil : rest.filter (fun b => b ≠ a) = rest := by
      apply List.filter_eq_self.mpr
      intro b hb
      simp only [ne_eq, decide_not, Bool.not_eq_eq_eq_not, Bool.not_true,
        decide_eq_false_iff_not]
      intro hba
      rw [hba] at hb
      exact hna hb
    rw [hfil, ih hnd']

/-- C10 counterexample: on the duplicate-containing table list `["A","A"]`
with no dependencies, `topological_sort` returns `["A","A"]`, so the table
`"A"` of the input list appears twice, not exactly once. -/
theorem topological_sort_duplicate_counterexample :
    topological_sort [] ["A", "A"] = ["A", "A"] ∧
    ¬(topological_sort [] ["A", "A"]).count "A" = 1 := by
  refine ⟨by decide, by decide⟩

/-- C10 amended: `topological_sort` is total, silently ignores dependency
edges whose endpoints are not both in the table list, and — for table lists
without duplicate entries, as the migrated table set (the keys of a dict)
always is — returns a permutation of the input list: every table appears
exactly once, cyclic graphs included. -/
theorem topological_sort_perm (dependencies : List (String × List String))
    (all_tables : List String) (hnd : all_tables.Nodup) :
    List.Perm (topological_sort dependencies all_tables) all_tables := by
  obtain ⟨orderF, hndF, hsubF, _, _, heq⟩ := kahn_final dependencies all_tables hnd
  rw [heq]
  by_cases hlen : orderF.length = all_tables.length
  · rw [if_pos hlen]
    obtain ⟨l, hper, hsub⟩ :=
      List.subperm_of_subset hndF (fun x hx => hsubF x hx)
    have hl : l = all_tables := hsub.eq_of_length (by rw [hper.length_eq, hlen])
    rw [← hl]
    exact hper.symm
  · rw [if_neg hlen]
    have hfo : firstOccurrences (all_tables.filter (fun t => ¬t ∈ orderF)) =
        all_tables.filter (fun t => ¬t ∈ orderF) :=
      firstOccurrences_of_nodup _ (hnd.filter _)
    rw [hfo]
    have h1 : List.Perm orderF (all_tables.filter (fun t => t ∈ orderF)) := by
      apply List.Subperm.antisymm
      · apply List.subperm_of_subset hndF
        intro x hx
        exact List.mem_filter.mpr ⟨hsubF x hx, by simpa using hx⟩
      · apply List.subperm_of_subset (hnd.filter _)
        intro x hx
        have := (List.mem_filter.mp hx).2
        simpa using this
    have h2 : List.Perm (orderF ++ all_tables.filter (fun t => ¬t ∈ orderF))
        ((all_tables.filter (fun t => t ∈ orderF)) ++
          all_tables.filter (fun t => ¬t ∈ orderF)) :=
      List.Perm.append_right _ h1
    refine h2.trans ?_
    have h3 : all_tables.filter (fun t => ¬t ∈ orderF) =
        all_tables.filter (fun t => !(decide (t ∈ orderF))) := by
      apply List.filter_congr
      intro t _
      simp
    rw [h3]
    exact List.filter_append_perm _ all_tables

/-- Witness for `topological_sort_perm` on a cyclic two-node graph: both
tables survive into the output. -/
theorem topological_sort_perm_witness :
    List.Perm (topological_sort [("A", ["B"]), ("B", ["A"])] ["A", "B"])
      ["A", "B"] :=
  topological_sort_perm [("A", ["B"]), ("B", ["A"])] ["A", "B"] (by decide)

/-- C5: for an acyclic dependency graph over a duplicate-free table list —
acyclicity expressed by a ranking that strictly decreases from child to
parent along every in-set edge — `topological_sort` places every table after
all of its parents: for each dependency entry `(child, parents)` and each
parent in the table list, `[parent, child]` is a sublist of the returned
order. -/
theorem topological_sort_respects_dependencies
    (dependencies : List (String × List String)) (all_tables : List String)
    (hnd : all_tables.Nodup) (rank : String → Nat)
    (hacyc : ∀ child parents, (child, parents) ∈ dependencies →
      ∀ parent ∈ parents, child ∈ all_tables → parent ∈ all_tables →
        rank parent < rank child)
    (child parent : String) (parents : List String)
    (hdep : (child, parents) ∈ dependencies) (hp : parent ∈ parents)
    (hc : child ∈ all_tables) (hpt : parent ∈ all_tables) :
    List.Sublist [parent, child] (topological_sort dependencies all_tables) := by
  obtain ⟨orderF, hndF, hsubF, hpendF, hbeforeF, heq⟩ :=
    kahn_final dependencies all_tables hnd
  have hacyc_ve : ∀ e ∈ keptEdges all_tables (depEdges dependencies),
      rank e.2 < rank e.1 := by
    intro e he
    have hke := keptEdges_mem _ _ e he
    have hed : e ∈ depEdges dependencies := by
      unfold keptEdges at he
      exact (List.mem_filter.mp he).1
    unfold depEdges at hed
    rw [List.mem_flatten] at hed
    obtain ⟨l, hl, hel⟩ := hed
    obtain ⟨q, hq, hql⟩ := List.mem_map.mp hl
    rw [← hql] at hel
    obtain ⟨v, hv, hve⟩ := List.mem_map.mp hel
    have h1 : e.1 = q.1 := by rw [← hve]
    have h2 : e.2 = v := by rw [← hve]
    rw [h1, h2]
    exact hacyc q.1 q.2 hq v hv (h1 ▸ hke.1) (h2 ▸ hke.2)
  have hcover : ∀ x ∈ all_tables, x ∈ orderF := by
    have key : ∀ (n : Nat) (x : String), x ∈ all_tables → x ∉ orderF →
        rank x ≤ n → False := by
      intro n
      induction n with
      | zero =>
        intro x hx hnx hr
        obtain ⟨e, he, hex, _⟩ := hpendF x hx hnx
        have := hacyc_ve e he
        rw [hex] at this
        omega
      | succ n ihn =>
        intro x hx hnx hr
        obtain ⟨e, he, hex, hnp⟩ := hpendF x hx hnx
        have hlt := hacyc_ve e he
        rw [hex] at hlt
        exact ihn e.2 (keptEdges_mem _ _ e he).2 hnp (by omega)
    intro x hx
    by_contra hnx
    exact key (rank x) x hx hnx (Nat.le_refl _)
  have hlen : orderF.length = all_tables.length :=
    Nat.le_antisymm
      (List.subperm_of_subset hndF (fun x hx => hsubF x hx)).length_le
      (List.subperm_of_subset hnd (fun x hx => hcover x hx)).length_le
  rw [heq, if_pos hlen]
  have hedge : (child, parent) ∈ keptEdges all_tables (depEdges dependencies) := by
    unfold keptEdges
    rw [List.mem_filter]
    refine ⟨?_, by simp [hc, hpt]⟩
    unfold depEdges
    rw [List.mem_flatten]
    refine ⟨parents.map (fun v => (child, v)), ?_, List.mem_map_of_mem _ hp⟩
    exact List.mem_map_of_mem (fun p => p.2.map (fun v => (p.1, v))) hdep
  obtain ⟨o₁, o₂, hsplit⟩ := List.append_of_mem (hcover child hc)
  have hparent : parent ∈ o₁ :=
    hbeforeF o₁ child o₂ hsplit (child, parent) hedge rfl
  rw [hsplit]
  exact (List.singleton_sublist.mpr hparent).append
    ((List.nil_sublist o₂).cons₂ child)

/-- Witness for `topological_sort_respects_dependencies`: table `B` depends
on parent `A`, and the resolved order lists `A` before `B`. -/
theorem topological_sort_respects_dependencies_witness :
    List.Sublist ["A", "B"] (topological_sort [("B", ["A"])] ["B", "A"]) :=
  topological_sort_respects_dependencies [("B", ["A"])] ["B", "A"] (by decide)
    (fun s => if s = "B" then 1 else 0)
    (by
      intro child parents hmem parent hp _ _
      rw [List.mem_singleton] at hmem
      injection hmem with h1 h2
      subst h1
      subst h2
      rw [List.mem_singleton] at hp
      subst hp
      decide)
    "B" "A" ["A"] (by decide) (by decide) (by decide) (by decide)

end Migration
